import Mathlib

/-!
Verification development for the cryptorandom library: a SHA-256
counter-mode PRNG (`cryptorandom/cryptorandom.py`) and the sampling
routines built on it (`cryptorandom/sample.py`).

The Python code is shallowly embedded: byte strings are `List Nat`
(each entry < 256), the mutable `SHA256` PRNG object is a record
passed explicitly, Python exceptions are `Option`/`Except` failures,
and the incremental `hashlib.sha256` context is represented by the
byte string fed to it so far (a hashlib context is a pure function of
those bytes); `digest()` applies the `sha256` function below, a full
executable implementation of FIPS 180-4 SHA-256.
-/

namespace Cryptorandom

/-- Truncate to a 32-bit word, `x % 2^32`. -/
def w32 (x : Nat) : Nat := x % 4294967296

/-- Right rotation of a 32-bit word. -/
def rotr32 (x n : Nat) : Nat := w32 ((x >>> n) ||| (x <<< (32 - n)))

/-- The 64 SHA-256 round constants (FIPS 180-4 §4.2.2), in decimal. -/
def sha256K : List Nat :=
  [1116352408, 1899447441, 3049323471, 3921009573,
   961987163, 1508970993, 2453635748, 2870763221,
   3624381080, 310598401, 607225278, 1426881987,
   1925078388, 2162078206, 2614888103, 3248222580,
   3835390401, 4022224774, 264347078, 604807628,
   770255983, 1249150122, 1555081692, 1996064986,
   2554220882, 2821834349, 2952996808, 3210313671,
   3336571891, 3584528711, 113926993, 338241895,
   666307205, 773529912, 1294757372, 1396182291,
   1695183700, 1986661051, 2177026350, 2456956037,
   2730485921, 2820302411, 3259730800, 3345764771,
   3516065817, 3600352804, 4094571909, 275423344,
   430227734, 506948616, 659060556, 883997877,
   958139571, 1322822218, 1537002063, 1747873779,
   1955562222, 2024104815, 2227730452, 2361852424,
   2428436474, 2756734187, 3204031479, 3329325298]

/-- Big-endian byte serialization of `n` into exactly `k` bytes. -/
def bytesBE : Nat → Nat → List Nat
  | 0, _ => []
  | k + 1, n => bytesBE k (n / 256) ++ [n % 256]

/-- Big-endian 32-bit words from a byte list (groups of four bytes). -/
def wordsBE : List Nat → List Nat
  | a :: b :: c :: d :: rest => (((a * 256 + b) * 256 + c) * 256 + d) :: wordsBE rest
  | _ => []

def smallSigma0 (x : Nat) : Nat := (rotr32 x 7) ^^^ (rotr32 x 18) ^^^ (x >>> 3)

def smallSigma1 (x : Nat) : Nat := (rotr32 x 17) ^^^ (rotr32 x 19) ^^^ (x >>> 10)

def bigSigma0 (x : Nat) : Nat := (rotr32 x 2) ^^^ (rotr32 x 13) ^^^ (rotr32 x 22)

def bigSigma1 (x : Nat) : Nat := (rotr32 x 6) ^^^ (rotr32 x 11) ^^^ (rotr32 x 25)

/-- `Ch(e,f,g)`; the complement of `e` is taken within 32 bits. -/
def chBits (e f g : Nat) : Nat := (e &&& f) ^^^ ((e ^^^ 4294967295) &&& g)

def majBits (a b c : Nat) : Nat := (a &&& b) ^^^ (a &&& c) ^^^ (b &&& c)

/-- Extend the 16 message-schedule words of a chunk to 64. -/
def extendSchedule (w0 : List Nat) : List Nat :=
  (List.range 48).foldl
    (fun w i =>
      let j := i + 16
      w ++ [w32 (w.getD (j - 16) 0 + smallSigma0 (w.getD (j - 15) 0) +
                 w.getD (j - 7) 0 + smallSigma1 (w.getD (j - 2) 0))])
    w0

/-- The eight 32-bit state words of SHA-256. -/
structure Hash8 where
  h0 : Nat
  h1 : Nat
  h2 : Nat
  h3 : Nat
  h4 : Nat
  h5 : Nat
  h6 : Nat
  h7 : Nat
  deriving DecidableEq

/-- The SHA-256 initialisation vector (FIPS 180-4 §5.3.3), in decimal. -/
def sha256H0 : Hash8 :=
  ⟨1779033703, 3144134277, 1013904242, 2773480762,
   1359893119, 2600822924, 528734635, 1541459225⟩

/-- One SHA-256 compression-function application. -/
def compressChunk (H : Hash8) (chunk : List Nat) : Hash8 :=
  let w := extendSchedule (wordsBE chunk)
  let s := (List.range 64).foldl
    (fun (s : Hash8) i =>
      let t1 := w32 (s.h7 + bigSigma1 s.h4 + chBits s.h4 s.h5 s.h6 + sha256K.getD i 0 + w.getD i 0)
      let t2 := w32 (bigSigma0 s.h0 + majBits s.h0 s.h1 s.h2)
      ⟨w32 (t1 + t2), s.h0, s.h1, s.h2, w32 (s.h3 + t1), s.h4, s.h5, s.h6⟩)
    H
  ⟨w32 (H.h0 + s.h0), w32 (H.h1 + s.h1), w32 (H.h2 + s.h2), w32 (H.h3 + s.h3),
   w32 (H.h4 + s.h4), w32 (H.h5 + s.h5), w32 (H.h6 + s.h6), w32 (H.h7 + s.h7)⟩

/-- FIPS 180-4 padding: `0x80`, zeros to 56 mod 64, 8-byte big-endian bit length. -/
def sha256Pad (msg : List Nat) : List Nat :=
  msg ++ 128 :: (List.replicate ((64 - (msg.length + 9) % 64) % 64) 0 ++ bytesBE 8 (8 * msg.length))

/-- Serialize the eight state words as the 32-byte big-endian digest. -/
def digestBytes (H : Hash8) : List Nat :=
  bytesBE 4 H.h0 ++ bytesBE 4 H.h1 ++ bytesBE 4 H.h2 ++ bytesBE 4 H.h3 ++
  bytesBE 4 H.h4 ++ bytesBE 4 H.h5 ++ bytesBE 4 H.h6 ++ bytesBE 4 H.h7

/-- SHA-256 of a byte string, as its 32-byte digest. -/
def sha256 (msg : List Nat) : List Nat :=
  let padded := sha256Pad msg
  let blocks := (List.range (padded.length / 64)).map (fun i => (padded.drop (64 * i)).take 64)
  digestBytes (blocks.foldl compressChunk sha256H0)

/-! ## The SHA256 PRNG state and its operations (`cryptorandom/cryptorandom.py`) -/

/-- A PRNG seed: an arbitrary-length integer or a string (class docstring). -/
inductive Seed where
  | int (i : Int)
  | str (s : String)
  deriving DecidableEq

/-- The UTF-8 bytes of a string (the byte list underlying `String.toUTF8`). -/
def strBytes (s : String) : List Nat :=
  (s.data.flatMap String.utf8EncodeChar).map (fun b => b.toNat)

/-- `str(baseseed)` as UTF-8 bytes: the decimal text of an integer seed,
the verbatim bytes of a string seed. -/
def encodeSeed : Seed → List Nat
  | .int i => strBytes (toString i)
  | .str s => strBytes s

/-- The state of a `SHA256` PRNG object.  The incremental `hashlib` context
`self.basehash` is represented by the bytes fed to it so far (`none` models
`self.basehash = None` for a `None` seed); `digest()` is `sha256` of those bytes. -/
structure SHA256State where
  baseseed : Option Seed
  counter : Nat
  basehash : Option (List Nat)
  randbits : Option Nat
  randbits_remaining : Nat
  deriving DecidableEq

/-- `SHA256._basehash`: the context fed with `str(baseseed) + ','` when the
seed is present, `None` otherwise. -/
def basehashOf (b : Option Seed) : Option (List Nat) :=
  b.map (fun s => encodeSeed s ++ [44])

/-- `SHA256.__init__(seed)`: `self.seed(seed)` on a fresh object (no `baseseed`
attribute yet, so the seed is stored and `_basehash` runs unconditionally). -/
def initState (b : Option Seed) : SHA256State :=
  { baseseed := b, counter := 0, basehash := basehashOf b,
    randbits := none, randbits_remaining := 0 }

/-- `SHA256.seed(baseseed)` on an existing object: the base seed and the
accumulator are reassigned only when the new seed differs from the current
one; the counter and the bit cache are reset unconditionally. -/
def seedOp (st : SHA256State) (b : Option Seed) : SHA256State :=
  if b = st.baseseed then
    { st with counter := 0, randbits := none, randbits_remaining := 0 }
  else
    { baseseed := b, counter := 0, basehash := basehashOf b,
      randbits := none, randbits_remaining := 0 }

/-- `SHA256.setstate(baseseed, counter, randbits_remaining)`: rebuild the
accumulator from the seed, feed `counter` zero bytes, store
`randbits_remaining`.  `self.randbits` is left untouched by the source.
A `None` seed makes `self.basehash.update` crash, modelled as `none`. -/
def setstate (st : SHA256State) (b : Option Seed) (counter : Nat) (rbr : Nat) :
    Option SHA256State :=
  match basehashOf b with
  | none => none
  | some m =>
    some { baseseed := b, counter := counter,
           basehash := some (m ++ List.replicate counter 0),
           randbits := st.randbits, randbits_remaining := rbr }

/-- `SHA256.getstate()`. -/
def getstate (st : SHA256State) : Option Seed × Nat × Nat :=
  (st.baseseed, st.counter, st.randbits_remaining)

/-- `SHA256.jumpahead(n)`: `counter += n` and `n` zero bytes fed to the
accumulator (crashes on a `None` accumulator). -/
def jumpahead (st : SHA256State) (n : Nat) : Option SHA256State :=
  match st.basehash with
  | none => none
  | some m =>
    some { st with counter := st.counter + n,
                   basehash := some (m ++ List.replicate n 0) }

/-- `SHA256.next()`. -/
def nextOp (st : SHA256State) : Option SHA256State := jumpahead st 1

/-- `SHA256.nextRandom()`: snapshot digest of the accumulator, then advance
by one. -/
def nextRandom (st : SHA256State) : Option (List Nat × SHA256State) :=
  match st.basehash with
  | none => none
  | some m => (jumpahead st 1).map (fun st2 => (sha256 m, st2))

/-- `int_from_hash` (Python 3 branch): big-endian integer of a byte string. -/
def intFromHash (bs : List Nat) : Nat :=
  bs.foldl (fun a b => a * 256 + b) 0

/-- The `while k > self.randbits_remaining` refill loop of `getrandbits`:
prepend the next block at the high end of the cache.  The fuel argument
only bounds the iteration count; `getrandbits` passes enough fuel for the
loop to run to completion (each pass adds 256 cached bits). -/
def refillLoop : Nat → SHA256State → Nat → Option SHA256State
  | fuel, st, k =>
    if st.randbits_remaining < k then
      match fuel with
      | 0 => none
      | fuel + 1 =>
        match nextRandom st with
        | none => none
        | some (block, st2) =>
          refillLoop fuel
            { st2 with
              randbits := some ((intFromHash block <<< st.randbits_remaining) |||
                                st.randbits.getD 0),
              randbits_remaining := st.randbits_remaining + 256 }
            k
    else some st

/-- `SHA256.getrandbits(k)`: initialize the cache from a fresh block if it is
`None`, refill while short, then harvest the low `k` bits. -/
def getrandbits (st : SHA256State) (k : Nat) : Option (Nat × SHA256State) := do
  let st1 ← match st.randbits with
    | none => (nextRandom st).map (fun p =>
        { p.2 with randbits := some (intFromHash p.1), randbits_remaining := 256 })
    | some _ => some st
  let st2 ← refillLoop (k + 1) st1 k
  let rb := st2.randbits.getD 0
  some (rb &&& (2 ^ k - 1),
    { st2 with randbits := some (rb >>> k),
               randbits_remaining := st2.randbits_remaining - k })

/-- Python `int.bit_length` on a non-negative integer. -/
def pyBitLength (m : Nat) : Nat :=
  if m = 0 then 0 else Nat.log2 m + 1

/-- The `while r >= n` rejection loop of `randbelow_from_randbits`, with the
first draw folded in: draw `r = getrandbits(k)`; if `r >= n`, draw again.
The fuel bounds the number of draws; the source loop is unbounded. -/
def randbelowLoop (n k : Nat) : Nat → SHA256State → Option (Nat × SHA256State)
  | 0, _ => none
  | fuel + 1, st =>
    match getrandbits st k with
    | none => none
    | some (r, st1) => if n ≤ r then randbelowLoop n k fuel st1 else some (r, st1)

/-- `SHA256.randbelow_from_randbits(n)`: rejection sampling over
`k = (n-1).bit_length()` bits. -/
def randbelow_from_randbits (st : SHA256State) (n : Nat) (fuel : Nat) :
    Option (Nat × SHA256State) :=
  randbelowLoop n (pyBitLength (n - 1)) fuel st

/-- Conversion of a non-negative Python `int` below `2^1024` to a Python
`float` (IEEE binary64): round to 53 significant bits, ties to even.  For
`u < 2^53` the conversion is exact; the result is always an integer. -/
def round53 (u : Nat) : Nat :=
  if u < 2 ^ 53 then u
  else
    let s := pyBitLength u - 53
    let q := u >>> s
    let r := u &&& (2 ^ s - 1)
    if 2 ^ (s - 1) < r ∨ (r = 2 ^ (s - 1) ∧ q % 2 = 1) then (q + 1) <<< s else q <<< s

/-- `SHA256.random()` (scalar case): `int_from_hash(self.nextRandom()) * RECIP_HASHLEN`
in Python evaluates `int.__mul__` against the float `2.0**-256`, which first
converts the 256-bit integer to a 53-bit float; the subsequent scaling by the
power of two is exact.  The result is the exact rational value of that float. -/
def pyRandom (st : SHA256State) : Option (ℚ × SHA256State) :=
  (nextRandom st).map (fun p => ((round53 (intFromHash p.1) : ℚ) / 2 ^ 256, p.2))

/-! ## Shape of SHA-256 digests -/

theorem bytesBE_length (k n : Nat) : (bytesBE k n).length = k := by
  induction k generalizing n with
  | zero => rfl
  | succ k ih => simp [bytesBE, ih]

theorem mem_bytesBE_lt {k n b : Nat} (h : b ∈ bytesBE k n) : b < 256 := by
  induction k generalizing n with
  | zero => simp [bytesBE] at h
  | succ k ih =>
    simp only [bytesBE, List.mem_append, List.mem_singleton] at h
    rcases h with h | h
    · exact ih h
    · subst h
      exact Nat.mod_lt _ (by omega)

theorem sha256_length (m : List Nat) : (sha256 m).length = 32 := by
  simp [sha256, digestBytes, bytesBE_length]

theorem mem_sha256_lt {m : List Nat} {b : Nat} (h : b ∈ sha256 m) : b < 256 := by
  simp only [sha256, digestBytes, List.mem_append] at h
  rcases h with ((((((h | h) | h) | h) | h) | h) | h) | h <;> exact mem_bytesBE_lt h

theorem foldl_base256_lt (bs : List Nat) (acc : Nat) (h : ∀ b ∈ bs, b < 256) :
    bs.foldl (fun a b => a * 256 + b) acc < (acc + 1) * 256 ^ bs.length := by
  induction bs generalizing acc with
  | nil => simp
  | cons b bs ih =>
    have hb : b < 256 := h b (by simp)
    have hrec := ih (acc * 256 + b) (fun x hx => h x (by simp [hx]))
    have hstep : (acc * 256 + b + 1) * 256 ^ bs.length ≤ (acc + 1) * 256 ^ (bs.length + 1) := by
      have h1 : acc * 256 + b + 1 ≤ (acc + 1) * 256 := by omega
      calc (acc * 256 + b + 1) * 256 ^ bs.length
          ≤ ((acc + 1) * 256) * 256 ^ bs.length := Nat.mul_le_mul_right _ h1
        _ = (acc + 1) * 256 ^ (bs.length + 1) := by ring
    simpa [List.foldl_cons] using lt_of_lt_of_le hrec hstep

theorem intFromHash_lt (bs : List Nat) (h : ∀ b ∈ bs, b < 256) :
    intFromHash bs < 256 ^ bs.length := by
  simpa [intFromHash] using foldl_base256_lt bs 0 h

theorem intFromHash_sha256_lt (m : List Nat) : intFromHash (sha256 m) < 2 ^ 256 := by
  have h := intFromHash_lt (sha256 m) (fun _ hb => mem_sha256_lt hb)
  rw [sha256_length] at h
  have h2 : (256 : Nat) ^ 32 = 2 ^ 256 := by norm_num
  omega

/-! ## Claim theorems: the PRNG core -/

/-- C1: a fresh handle seeded with `s` and advanced by `jumpahead(c)` holds
an accumulator fed with `encode(s) ++ "," ++ 0x00*c`, so its next
`nextRandom()` returns exactly `SHA256(encode(s) ++ "," ++ 0x00*c)`, and the
counter advances from `c` to `c + 1` only after the digest is taken. -/
theorem fresh_jumpahead_nextRandom_digest (s : Seed) (c : Nat) :
    ∃ st1 st2,
      jumpahead (initState (some s)) c = some st1 ∧
      st1.basehash = some (encodeSeed s ++ 44 :: List.replicate c 0) ∧
      st1.counter = c ∧
      nextRandom st1 = some (sha256 (encodeSeed s ++ 44 :: List.replicate c 0), st2) ∧
      st2.counter = c + 1 := by
  refine ⟨{ baseseed := some s, counter := 0 + c,
            basehash := some ((encodeSeed s ++ [44]) ++ List.replicate c 0),
            randbits := none, randbits_remaining := 0 },
          { baseseed := some s, counter := 0 + c + 1,
            basehash := some (((encodeSeed s ++ [44]) ++ List.replicate c 0) ++ List.replicate 1 0),
            randbits := none, randbits_remaining := 0 },
          rfl, by simp, by simp, ?_, by simp⟩
  simp [nextRandom, jumpahead]

set_option maxRecDepth 8000 in
/-- C2 (code bug): two handles with equal `getstate` triples — the second
reached by `next()` followed by a redundant `seed(5)` — give different
`nextRandom` outputs, because `seed` skips `_basehash()` when the seed value
is unchanged and leaves the advanced accumulator in place. -/
theorem getstate_equal_nextRandom_differs :
    ∃ st1,
      jumpahead (initState (some (Seed.int 5))) 1 = some st1 ∧
      getstate (seedOp st1 (some (Seed.int 5))) = getstate (initState (some (Seed.int 5))) ∧
      (nextRandom (seedOp st1 (some (Seed.int 5)))).map Prod.fst ≠
        (nextRandom (initState (some (Seed.int 5)))).map Prod.fst := by
  refine ⟨{ baseseed := some (Seed.int 5), counter := 0 + 1,
            basehash := some ((encodeSeed (Seed.int 5) ++ [44]) ++ List.replicate 1 0),
            randbits := none, randbits_remaining := 0 }, rfl, by decide, ?_⟩
  have henc : encodeSeed (Seed.int 5) = [53] := by decide
  simp only [seedOp, initState, basehashOf, henc]
  norm_num [nextRandom, jumpahead, getstate]
  decide

/-- C3 (code bug): calling `seed(b)` with `b` equal to the current base seed
on an advanced handle resets the counter to 0 but does not reinitialize the
accumulator, so invariant I1 fails right after the call. -/
theorem seed_same_value_keeps_stale_accumulator :
    ∃ st1,
      jumpahead (initState (some (Seed.int 5))) 1 = some st1 ∧
      getstate (seedOp st1 (some (Seed.int 5))) = (some (Seed.int 5), 0, 0) ∧
      (seedOp st1 (some (Seed.int 5))).basehash ≠ basehashOf (some (Seed.int 5)) := by
  refine ⟨{ baseseed := some (Seed.int 5), counter := 0 + 1,
            basehash := some ((encodeSeed (Seed.int 5) ++ [44]) ++ List.replicate 1 0),
            randbits := none, randbits_remaining := 0 }, rfl, by decide, by decide⟩

set_option maxRecDepth 30000 in
/-- C4 (code bug): `setstate(5, 2, 0)` does not clear `self.randbits`.  After
a fresh handle seeded with 5 consumes one bit via `getrandbits(1)`, restoring
the state `(5, 2, 0)` and calling `getrandbits(8)` ORs the stale cached bits
into the freshly drawn block, so the result differs from
`seed(5); jumpahead(2); getrandbits(8)` even though both handles hold the
`getstate` triple `(5, 2, 0)` before the call. -/
theorem setstate_stale_randbits_pollutes_getrandbits :
    ((getrandbits (initState (some (Seed.int 5))) 1).bind (fun p =>
        (setstate p.2 (some (Seed.int 5)) 2 0).map getstate) =
      (jumpahead (initState (some (Seed.int 5))) 2).map getstate) ∧
    ((getrandbits (initState (some (Seed.int 5))) 1).bind (fun p =>
        (setstate p.2 (some (Seed.int 5)) 2 0).bind (fun st =>
          (getrandbits st 8).map Prod.fst)) ≠
      (jumpahead (initState (some (Seed.int 5))) 2).bind (fun st =>
        (getrandbits st 8).map Prod.fst)) := by
  constructor
  · decide
  · decide

/-! ## The block stream consumed by `getrandbits` (claim C5) -/

/-- The first `n` 256-bit blocks emitted from an accumulator currently
holding `m0`, packed low-to-high: block `j` is `SHA256(m0 ++ 0x00*j)` and
occupies bits `[256j, 256j+256)`. -/
def streamN (m0 : List Nat) : Nat → Nat
  | 0 => 0
  | n + 1 => streamN m0 n + intFromHash (sha256 (m0 ++ List.replicate n 0)) * 2 ^ (256 * n)

/-- Run a sequence of `getrandbits` calls, collecting the returned windows. -/
def runGetrandbits : SHA256State → List Nat → Option (List Nat × SHA256State)
  | st, [] => some ([], st)
  | st, k :: ks =>
    match getrandbits st k with
    | none => none
    | some (v, st1) =>
      match runGetrandbits st1 ks with
      | none => none
      | some (vs, st2) => some (v :: vs, st2)

/-- Pack the windows `v_i` of widths `k_i` low-to-high into one integer. -/
def combineWindows : List Nat → List Nat → Nat
  | v :: vs, k :: ks => v + combineWindows vs ks * 2 ^ k
  | _, _ => 0

/-- Ghost invariant of the bit cache: after drawing `n` blocks from an
accumulator that started at `m0` (counter `c0`) and consuming the low `t`
bits of the packed stream, the cache holds exactly the unconsumed part. -/
def CacheInv (m0 : List Nat) (c0 n t : Nat) (st : SHA256State) : Prop :=
  st.basehash = some (m0 ++ List.replicate n 0) ∧
  st.counter = c0 + n ∧
  st.randbits = some (streamN m0 n / 2 ^ t) ∧
  st.randbits_remaining = 256 * n - t ∧
  t ≤ 256 * n

theorem streamN_lt (m0 : List Nat) (n : Nat) : streamN m0 n < 2 ^ (256 * n) := by
  induction n with
  | zero => simp [streamN]
  | succ n ih =>
    have hB := intFromHash_sha256_lt (m0 ++ List.replicate n 0)
    have h1 : streamN m0 (n + 1) <
        (intFromHash (sha256 (m0 ++ List.replicate n 0)) + 1) * 2 ^ (256 * n) := by
      rw [streamN]
      have := Nat.add_lt_add_right ih
        (intFromHash (sha256 (m0 ++ List.replicate n 0)) * 2 ^ (256 * n))
      calc streamN m0 n + intFromHash (sha256 (m0 ++ List.replicate n 0)) * 2 ^ (256 * n)
          < 2 ^ (256 * n) + intFromHash (sha256 (m0 ++ List.replicate n 0)) * 2 ^ (256 * n) := this
        _ = (intFromHash (sha256 (m0 ++ List.replicate n 0)) + 1) * 2 ^ (256 * n) := by ring
    calc streamN m0 (n + 1)
        < (intFromHash (sha256 (m0 ++ List.replicate n 0)) + 1) * 2 ^ (256 * n) := h1
      _ ≤ 2 ^ 256 * 2 ^ (256 * n) := Nat.mul_le_mul_right _ (by omega)
      _ = 2 ^ (256 * (n + 1)) := by rw [← pow_add]; congr 1; omega

theorem streamN_extend (m0 : List Nat) {n m : Nat} (h : n ≤ m) :
    ∃ D, streamN m0 m = streamN m0 n + D * 2 ^ (256 * n) := by
  induction m, h using Nat.le_induction with
  | base => exact ⟨0, by simp⟩
  | succ m hm ih =>
    obtain ⟨D, hD⟩ := ih
    refine ⟨D + intFromHash (sha256 (m0 ++ List.replicate m 0)) * 2 ^ (256 * (m - n)), ?_⟩
    have hexp : (2 : Nat) ^ (256 * m) = 2 ^ (256 * (m - n)) * 2 ^ (256 * n) := by
      rw [← pow_add]; congr 1; omega
    rw [streamN, hD, hexp]; ring

theorem div_pow_lt_pow_sub {S t a : Nat} (h : S < 2 ^ a) (ht : t ≤ a) :
    S / 2 ^ t < 2 ^ (a - t) := by
  rw [Nat.div_lt_iff_lt_mul (Nat.pos_pow_of_pos t (by norm_num))]
  calc S < 2 ^ a := h
    _ = 2 ^ (a - t) * 2 ^ t := by rw [← pow_add]; congr 1; omega

theorem refillLoop_spec (m0 : List Nat) (c0 k : Nat) :
    ∀ (fuel n t : Nat) (st : SHA256State), CacheInv m0 c0 n t st →
      k ≤ st.randbits_remaining + 256 * fuel →
      ∃ n' st', n ≤ n' ∧ refillLoop fuel st k = some st' ∧
        CacheInv m0 c0 n' t st' ∧ t + k ≤ 256 * n' := by
  intro fuel
  induction fuel with
  | zero =>
    intro n t st hInv hfuel
    obtain ⟨hb, hc, hr, hrr, ht⟩ := hInv
    rw [hrr] at hfuel
    have hnlt : ¬ st.randbits_remaining < k := by rw [hrr]; omega
    exact ⟨n, st, le_refl n, by rw [refillLoop, if_neg hnlt], ⟨hb, hc, hr, hrr, ht⟩, by omega⟩
  | succ fuel ih =>
    intro n t st hInv hfuel
    obtain ⟨hb, hc, hr, hrr, ht⟩ := hInv
    by_cases hlt : st.randbits_remaining < k
    · have hnext : nextRandom st = some (sha256 (m0 ++ List.replicate n 0),
          { st with counter := st.counter + 1,
                    basehash := some ((m0 ++ List.replicate n 0) ++ List.replicate 1 0) }) := by
        simp [nextRandom, jumpahead, hb]
      have hstep : refillLoop (fuel + 1) st k = refillLoop fuel
          { st with counter := st.counter + 1,
                    basehash := some ((m0 ++ List.replicate n 0) ++ List.replicate 1 0),
                    randbits := some
                      ((intFromHash (sha256 (m0 ++ List.replicate n 0)) <<<
                          st.randbits_remaining) ||| st.randbits.getD 0),
                    randbits_remaining := st.randbits_remaining + 256 } k := by
        rw [refillLoop, if_pos hlt, hnext]
      have hInv3 : CacheInv m0 c0 (n + 1) t
          { st with counter := st.counter + 1,
                    basehash := some ((m0 ++ List.replicate n 0) ++ List.replicate 1 0),
                    randbits := some
                      ((intFromHash (sha256 (m0 ++ List.replicate n 0)) <<<
                          st.randbits_remaining) ||| st.randbits.getD 0),
                    randbits_remaining := st.randbits_remaining + 256 } := by
        have hy : streamN m0 n / 2 ^ t < 2 ^ (256 * n - t) :=
          div_pow_lt_pow_sub (streamN_lt m0 n) ht
        have hor : intFromHash (sha256 (m0 ++ List.replicate n 0)) <<< (256 * n - t) |||
            (streamN m0 n / 2 ^ t) =
            intFromHash (sha256 (m0 ++ List.replicate n 0)) * 2 ^ (256 * n - t) +
              streamN m0 n / 2 ^ t := by
          calc intFromHash (sha256 (m0 ++ List.replicate n 0)) <<< (256 * n - t) |||
                (streamN m0 n / 2 ^ t)
              = 2 ^ (256 * n - t) * intFromHash (sha256 (m0 ++ List.replicate n 0)) |||
                (streamN m0 n / 2 ^ t) := by rw [Nat.shiftLeft_eq, mul_comm]
            _ = 2 ^ (256 * n - t) * intFromHash (sha256 (m0 ++ List.replicate n 0)) +
                streamN m0 n / 2 ^ t := (Nat.mul_add_lt_is_or hy _).symm
            _ = intFromHash (sha256 (m0 ++ List.replicate n 0)) * 2 ^ (256 * n - t) +
                streamN m0 n / 2 ^ t := by ring
        have hdiv : streamN m0 (n + 1) / 2 ^ t =
            streamN m0 n / 2 ^ t +
              intFromHash (sha256 (m0 ++ List.replicate n 0)) * 2 ^ (256 * n - t) := by
          have hBpow : intFromHash (sha256 (m0 ++ List.replicate n 0)) * 2 ^ (256 * n) =
              (intFromHash (sha256 (m0 ++ List.replicate n 0)) * 2 ^ (256 * n - t)) * 2 ^ t := by
            rw [mul_assoc, ← pow_add]; congr 2; omega
          rw [streamN, hBpow, Nat.add_mul_div_right _ _ (Nat.pos_pow_of_pos t (by norm_num))]
        refine ⟨?_, ?_, ?_, ?_, by omega⟩
        · show some ((m0 ++ List.replicate n 0) ++ List.replicate 1 0) =
            some (m0 ++ List.replicate (n + 1) 0)
          rw [List.append_assoc, List.replicate_one, ← List.replicate_succ']
        · show st.counter + 1 = c0 + (n + 1)
          omega
        · show some ((intFromHash (sha256 (m0 ++ List.replicate n 0)) <<<
              st.randbits_remaining) ||| st.randbits.getD 0) =
            some (streamN m0 (n + 1) / 2 ^ t)
          rw [hr, hrr]
          show some (_ ||| (streamN m0 n / 2 ^ t)) = _
          rw [hor, hdiv]
          ring_nf
        · show st.randbits_remaining + 256 = 256 * (n + 1) - t
          omega
      obtain ⟨n', st', hn', heq, hInv', hk'⟩ := ih (n + 1) t _ hInv3 (by simp; omega)
      exact ⟨n', st', by omega, by rw [hstep]; exact heq, hInv', hk'⟩
    · refine ⟨n, st, le_refl n, by rw [refillLoop, if_neg hlt], ⟨hb, hc, hr, hrr, ht⟩, ?_⟩
      rw [hrr] at hlt
      omega

theorem getrandbits_inv (m0 : List Nat) (c0 n t k : Nat) (st : SHA256State)
    (hInv : CacheInv m0 c0 n t st) :
    ∃ n' st', n ≤ n' ∧ t + k ≤ 256 * n' ∧
      getrandbits st k = some ((streamN m0 n' / 2 ^ t) % 2 ^ k, st') ∧
      CacheInv m0 c0 n' (t + k) st' := by
  obtain ⟨hb, hc, hr, hrr, ht⟩ := hInv
  obtain ⟨n', st2, hn', hloop, hInv2, hk'⟩ :=
    refillLoop_spec m0 c0 k (k + 1) n t st ⟨hb, hc, hr, hrr, ht⟩ (by omega)
  obtain ⟨hb2, hc2, hr2, hrr2, ht2⟩ := hInv2
  refine ⟨n', { st2 with randbits := some ((streamN m0 n' / 2 ^ t) >>> k),
                         randbits_remaining := st2.randbits_remaining - k },
          hn', hk', ?_, ?_, ?_, ?_, ?_, ?_⟩
  · simp [getrandbits, hr, hloop, hr2, Nat.and_pow_two_sub_one_eq_mod]
  · exact hb2
  · exact hc2
  · show some ((streamN m0 n' / 2 ^ t) >>> k) = some (streamN m0 n' / 2 ^ (t + k))
    rw [Nat.shiftRight_eq_div_pow, Nat.div_div_eq_div_mul, ← pow_add]
  · show st2.randbits_remaining - k = 256 * n' - (t + k)
    omega
  · exact hk'

theorem getrandbits_none_cache (m0 : List Nat) (c0 : Nat) (st : SHA256State)
    (hb : st.basehash = some m0) (hc : st.counter = c0) (hr : st.randbits = none) :
    ∃ stI, CacheInv m0 c0 1 0 stI ∧ ∀ k, getrandbits st k = getrandbits stI k := by
  refine ⟨{ st with counter := st.counter + 1,
                    basehash := some (m0 ++ List.replicate 1 0),
                    randbits := some (intFromHash (sha256 m0)),
                    randbits_remaining := 256 },
      ⟨rfl, by show st.counter + 1 = c0 + 1; omega, ?_, by norm_num, by omega⟩, ?_⟩
  · show some (intFromHash (sha256 m0)) = some (streamN m0 1 / 2 ^ 0)
    simp [streamN]
  · intro k
    simp [getrandbits, hr, hb, nextRandom, jumpahead]

theorem runGetrandbits_inv (m0 : List Nat) (c0 : Nat) (ks : List Nat) :
    ∀ n t (st : SHA256State), CacheInv m0 c0 n t st →
      ∃ n' vals st', n ≤ n' ∧ t + ks.sum ≤ 256 * n' ∧
        runGetrandbits st ks = some (vals, st') ∧
        combineWindows vals ks = (streamN m0 n' / 2 ^ t) % 2 ^ ks.sum ∧
        CacheInv m0 c0 n' (t + ks.sum) st' := by
  induction ks with
  | nil =>
    intro n t st hInv
    exact ⟨n, [], st, le_refl n, by have := hInv.2.2.2.2; simpa using this,
           rfl, by simp [combineWindows, Nat.mod_one], by simpa using hInv⟩
  | cons k ks ih =>
    intro n t st hInv
    obtain ⟨n1, st1, hn1, hk1, hget, hInv1⟩ := getrandbits_inv m0 c0 n t k st hInv
    obtain ⟨n2, vals, st2, hn2, hk2, hrun, hcomb, hInv2⟩ := ih n1 (t + k) st1 hInv1
    have hton : t + k ≤ 256 * n1 := hk1
    have hpos : (0 : Nat) < 2 ^ t := Nat.pos_pow_of_pos t (by norm_num)
    -- the first window agrees whether read from the n1-block or n2-block prefix
    have hwin : (streamN m0 n1 / 2 ^ t) % 2 ^ k = (streamN m0 n2 / 2 ^ t) % 2 ^ k := by
      obtain ⟨D, hD⟩ := streamN_extend m0 hn2
      have hsplit : streamN m0 n2 / 2 ^ t =
          streamN m0 n1 / 2 ^ t + D * 2 ^ (256 * n1 - t) := by
        have : D * 2 ^ (256 * n1) = (D * 2 ^ (256 * n1 - t)) * 2 ^ t := by
          rw [mul_assoc, ← pow_add]; congr 2; omega
        rw [hD, this, Nat.add_mul_div_right _ _ hpos]
      have hmul : D * 2 ^ (256 * n1 - t) = (D * 2 ^ (256 * n1 - t - k)) * 2 ^ k := by
        rw [mul_assoc, ← pow_add]; congr 2; omega
      rw [hsplit, hmul, Nat.add_mul_mod_self_right]
    refine ⟨n2, (streamN m0 n1 / 2 ^ t) % 2 ^ k :: vals, st2, le_trans hn1 hn2, ?_, ?_, ?_, ?_⟩
    · simp only [List.sum_cons]; omega
    · simp only [runGetrandbits, hget, hrun]
    · show (streamN m0 n1 / 2 ^ t) % 2 ^ k + combineWindows vals ks * 2 ^ k =
        (streamN m0 n2 / 2 ^ t) % 2 ^ (k :: ks).sum
      have hsplit2 : streamN m0 n2 / 2 ^ (t + k) = (streamN m0 n2 / 2 ^ t) / 2 ^ k := by
        rw [Nat.div_div_eq_div_mul, ← pow_add]
      have hmodmul : (streamN m0 n2 / 2 ^ t) % 2 ^ ((k :: ks).sum) =
          (streamN m0 n2 / 2 ^ t) % 2 ^ k +
            2 ^ k * ((streamN m0 n2 / 2 ^ t) / 2 ^ k % 2 ^ ks.sum) := by
        rw [List.sum_cons, pow_add, Nat.mod_mul]
      rw [hwin, hcomb, hsplit2, hmodmul]
      ring
    · have : t + (k :: ks).sum = t + k + ks.sum := by simp [List.sum_cons]; omega
      rw [this]
      exact hInv2

set_option maxRecDepth 2000 in
/-- C5: starting from a freshly seeded handle jumped ahead to counter `c`
(empty bit cache), any sequence of `getrandbits(kᵢ)` calls with `kᵢ > 0`
succeeds, the low-to-high concatenation of the returned `kᵢ`-bit windows
equals the low `Σkᵢ` bits of the packed stream of successive 256-bit
`nextRandom` blocks, invariant I2 (`randbits < 2^randbits_remaining`) holds
afterwards, and the counter has advanced by exactly the number of consumed
blocks. -/
theorem getrandbits_concat_stream (s : Seed) (c : Nat) (ks : List Nat)
    (st0 : SHA256State) (hks : ks ≠ []) (hpos : ∀ k ∈ ks, 0 < k)
    (hst0 : jumpahead (initState (some s)) c = some st0) :
    ∃ n' vals st',
      runGetrandbits st0 ks = some (vals, st') ∧
      1 ≤ n' ∧ ks.sum ≤ 256 * n' ∧
      combineWindows vals ks =
        streamN ((encodeSeed s ++ [44]) ++ List.replicate c 0) n' % 2 ^ ks.sum ∧
      (∃ rb, st'.randbits = some rb ∧ rb < 2 ^ st'.randbits_remaining) ∧
      st'.randbits_remaining = 256 * n' - ks.sum ∧
      st'.counter = c + n' := by
  have hst0' : st0 = ({ baseseed := some s, counter := 0 + c,
                        basehash := some ((encodeSeed s ++ [44]) ++ List.replicate c 0),
                        randbits := none, randbits_remaining := 0 } : SHA256State) := by
    have h : jumpahead (initState (some s)) c =
        some ({ baseseed := some s, counter := 0 + c,
                basehash := some ((encodeSeed s ++ [44]) ++ List.replicate c 0),
                randbits := none, randbits_remaining := 0 } : SHA256State) := rfl
    rw [h] at hst0
    exact (Option.some.inj hst0).symm
  obtain ⟨k, ks', rfl⟩ : ∃ k ks', ks = k :: ks' := by
    cases ks with
    | nil => exact absurd rfl hks
    | cons k ks' => exact ⟨k, ks', rfl⟩
  obtain ⟨stI, hInvI, hsame⟩ := getrandbits_none_cache
    ((encodeSeed s ++ [44]) ++ List.replicate c 0) c st0
    (by rw [hst0']) (by rw [hst0']; show 0 + c = c; omega) (by rw [hst0'])
  obtain ⟨n', vals, st', hn', hsum, hrun, hcomb, hInv'⟩ :=
    runGetrandbits_inv ((encodeSeed s ++ [44]) ++ List.replicate c 0) c (k :: ks') 1 0 stI hInvI
  obtain ⟨hb', hc', hr', hrr', ht'⟩ := hInv'
  refine ⟨n', vals, st', ?_, hn', by simpa using hsum, ?_, ?_, ?_, ?_⟩
  · show runGetrandbits st0 (k :: ks') = some (vals, st')
    rw [runGetrandbits, hsame k, ← runGetrandbits]
    exact hrun
  · rw [hcomb]
    simp
  · refine ⟨streamN ((encodeSeed s ++ [44]) ++ List.replicate c 0) n' / 2 ^ (0 + (k :: ks').sum),
      hr', ?_⟩
    rw [hrr']
    exact div_pow_lt_pow_sub (streamN_lt _ n')
      (by simpa using hsum)
  · rw [hrr']
    simp
  · rw [hc']

/-- Witness for C5 at `s = 5`, `c = 0`, `ks = [1]`. -/
theorem getrandbits_concat_stream_witness :
    ([1] : List Nat) ≠ [] ∧ (∀ k ∈ ([1] : List Nat), 0 < k) ∧
    (jumpahead (initState (some (Seed.int 5))) 0 =
      some ({ baseseed := some (Seed.int 5), counter := 0 + 0,
              basehash := some ((encodeSeed (Seed.int 5) ++ [44]) ++ List.replicate 0 0),
              randbits := none, randbits_remaining := 0 } : SHA256State)) ∧
    (∃ n' vals st',
      runGetrandbits ({ baseseed := some (Seed.int 5), counter := 0 + 0,
                        basehash := some ((encodeSeed (Seed.int 5) ++ [44]) ++
                          List.replicate 0 0),
                        randbits := none, randbits_remaining := 0 } : SHA256State) [1] =
        some (vals, st') ∧
      1 ≤ n' ∧ ([1] : List Nat).sum ≤ 256 * n' ∧
      combineWindows vals [1] =
        streamN ((encodeSeed (Seed.int 5) ++ [44]) ++ List.replicate 0 0) n' %
          2 ^ ([1] : List Nat).sum ∧
      (∃ rb, st'.randbits = some rb ∧ rb < 2 ^ st'.randbits_remaining) ∧
      st'.randbits_remaining = 256 * n' - ([1] : List Nat).sum ∧
      st'.counter = 0 + n') :=
  ⟨by decide, by decide, rfl,
   getrandbits_concat_stream (Seed.int 5) 0 [1] _ (by decide) (by decide) rfl⟩

/-! ## Rejection sampling (claim C6) -/

theorem randbelowLoop_lt (n k : Nat) (hn : 1 ≤ n) :
    ∀ fuel (st : SHA256State) v st',
      randbelowLoop n k fuel st = some (v, st') → v < n := by
  intro fuel
  induction fuel with
  | zero =>
    intro st v st' h
    simp [randbelowLoop] at h
  | succ fuel ih =>
    intro st v st' h
    rw [randbelowLoop] at h
    cases hg : getrandbits st k with
    | none => rw [hg] at h; exact absurd h (by simp)
    | some p =>
      obtain ⟨r, st1⟩ := p
      rw [hg] at h
      have h' : (if n ≤ r then randbelowLoop n k fuel st1 else some (r, st1)) =
          some (v, st') := h
      by_cases hr : n ≤ r
      · rw [if_pos hr] at h'
        exact ih st1 v st' h'
      · rw [if_neg hr] at h'
        have heq := Option.some.inj h'
        have hv : r = v := congrArg Prod.fst heq
        omega

/-- C6: for `n ≥ 1`, `randbelow_from_randbits(n)` rejects over
`k = (n-1).bit_length()` bits: whenever it returns, the value is `< n`
(hence in `[0, n)`), and after one draw `r` it returns `(r, st1)` exactly
when `r < n` and otherwise continues the rejection loop on the advanced
state — an accepted draw is never rejected and a value `≥ n` never returned. -/
theorem randbelow_rejection_props (st : SHA256State) (n fuel : Nat) (hn : 1 ≤ n) :
    (∀ v st', randbelow_from_randbits st n fuel = some (v, st') → v < n) ∧
    (∀ r st1, getrandbits st (pyBitLength (n - 1)) = some (r, st1) →
      randbelow_from_randbits st n (fuel + 1) =
        if n ≤ r then randbelowLoop n (pyBitLength (n - 1)) fuel st1
        else some (r, st1)) := by
  constructor
  · intro v st' h
    exact randbelowLoop_lt n _ hn fuel st v st' h
  · intro r st1 hg
    rw [randbelow_from_randbits, randbelowLoop, hg]

/-- Witness for C6 at `n = 3`, `fuel = 1`, on a state whose cache holds the
two bits `11`: the first draw `r = 3` is rejected, proving the hypotheses
are satisfiable and instantiating both conjuncts. -/
theorem randbelow_rejection_props_witness :
    1 ≤ 3 ∧
    ((∀ v st', randbelow_from_randbits
        ({ baseseed := some (Seed.int 5), counter := 0, basehash := some [53, 44],
           randbits := some 3, randbits_remaining := 8 } : SHA256State) 3 1 =
          some (v, st') → v < 3) ∧
     (∀ r st1, getrandbits
        ({ baseseed := some (Seed.int 5), counter := 0, basehash := some [53, 44],
           randbits := some 3, randbits_remaining := 8 } : SHA256State)
          (pyBitLength (3 - 1)) = some (r, st1) →
      randbelow_from_randbits
        ({ baseseed := some (Seed.int 5), counter := 0, basehash := some [53, 44],
           randbits := some 3, randbits_remaining := 8 } : SHA256State) 3 (1 + 1) =
        if 3 ≤ r then randbelowLoop 3 (pyBitLength (3 - 1)) 1 st1
        else some (r, st1))) :=
  ⟨by decide,
   randbelow_rejection_props
     ({ baseseed := some (Seed.int 5), counter := 0, basehash := some [53, 44],
        randbits := some 3, randbits_remaining := 8 } : SHA256State) 3 1 (by decide)⟩

/-! ## `random()` and the float conversion (claim C8) -/

theorem round53_le_of_lt {u : Nat} (hu : u < 2 ^ 256) : round53 u ≤ 2 ^ 256 := by
  rw [round53]
  by_cases h53 : u < 2 ^ 53
  · rw [if_pos h53]
    have : (2 : Nat) ^ 53 ≤ 2 ^ 256 := Nat.pow_le_pow_right (by norm_num) (by norm_num)
    omega
  · rw [if_neg h53]
    have hune : u ≠ 0 := by
      intro h0
      rw [h0] at h53
      exact h53 (Nat.pos_pow_of_pos 53 (by norm_num))
    have hbl_le : pyBitLength u ≤ 256 := by
      rw [pyBitLength, if_neg hune]
      have := (Nat.log2_lt hune).mpr hu
      omega
    have hbl_ge : 54 ≤ pyBitLength u := by
      rw [pyBitLength, if_neg hune]
      have : 53 ≤ u.log2 := (Nat.le_log2 hune).mpr (by omega)
      omega
    have hlt_self : u < 2 ^ pyBitLength u := by
      rw [pyBitLength, if_neg hune]
      exact Nat.lt_log2_self
    have hq : u >>> (pyBitLength u - 53) < 2 ^ 53 := by
      rw [Nat.shiftRight_eq_div_pow]
      have := div_pow_lt_pow_sub hlt_self
        (show pyBitLength u - 53 ≤ pyBitLength u by omega)
      have he : pyBitLength u - (pyBitLength u - 53) = 53 := by omega
      rwa [he] at this
    have hle : ∀ q', q' ≤ u >>> (pyBitLength u - 53) + 1 →
        q' <<< (pyBitLength u - 53) ≤ 2 ^ 256 := by
      intro q' hq'
      rw [Nat.shiftLeft_eq]
      calc q' * 2 ^ (pyBitLength u - 53)
          ≤ 2 ^ 53 * 2 ^ (pyBitLength u - 53) := Nat.mul_le_mul_right _ (by omega)
        _ = 2 ^ (53 + (pyBitLength u - 53)) := by rw [← pow_add]
        _ ≤ 2 ^ 256 := Nat.pow_le_pow_right (by norm_num) (by omega)
    by_cases hc : 2 ^ (pyBitLength u - 53 - 1) < u &&& (2 ^ (pyBitLength u - 53) - 1) ∨
        (u &&& (2 ^ (pyBitLength u - 53) - 1) = 2 ^ (pyBitLength u - 53 - 1) ∧
         u >>> (pyBitLength u - 53) % 2 = 1)
    · rw [if_pos hc]
      exact hle _ (by omega)
    · rw [if_neg hc]
      exact hle _ (by omega)

/-- C8 (amended): every scalar produced by `random()` equals
`round53(U) * 2^-256` where `U` is the big-endian integer of the 32-byte
block and `round53` is IEEE round-to-nearest-even conversion to a 53-bit
float; the value lies in `[0, 1]` and the counter advances by one. -/
theorem pyRandom_eq_round53 (st : SHA256State) (m : List Nat)
    (hb : st.basehash = some m) :
    ∃ st', pyRandom st =
        some ((round53 (intFromHash (sha256 m)) : ℚ) / 2 ^ 256, st') ∧
      0 ≤ ((round53 (intFromHash (sha256 m)) : ℚ) / 2 ^ 256) ∧
      ((round53 (intFromHash (sha256 m)) : ℚ) / 2 ^ 256) ≤ 1 ∧
      st'.counter = st.counter + 1 := by
  refine ⟨{ st with counter := st.counter + 1,
                    basehash := some (m ++ List.replicate 1 0) }, ?_, ?_, ?_, rfl⟩
  · simp [pyRandom, nextRandom, jumpahead, hb]
  · positivity
  · rw [div_le_one (by positivity)]
    have h := round53_le_of_lt (intFromHash_sha256_lt m)
    calc ((round53 (intFromHash (sha256 m)) : ℚ))
        ≤ ((2 ^ 256 : Nat) : ℚ) := by exact_mod_cast h
      _ = 2 ^ 256 := by push_cast; ring

/-- If `u ≥ 2^202` and `u` is not a multiple of `2^150`, the 53-bit float
conversion cannot be exact: `round53 u` is a multiple of
`2^(bitlength u − 53)` and `bitlength u − 53 ≥ 150`. -/
theorem round53_ne_of (u : Nat) (hlow : 2 ^ 202 ≤ u) (hmod : u % 2 ^ 150 ≠ 0) :
    round53 u ≠ u := by
  intro heq
  have h53 : ¬ u < 2 ^ 53 := by
    have : (2 : Nat) ^ 53 ≤ 2 ^ 202 := Nat.pow_le_pow_right (by norm_num) (by norm_num)
    omega
  have hune : u ≠ 0 := by
    have : (0 : Nat) < 2 ^ 202 := Nat.pos_pow_of_pos _ (by norm_num)
    omega
  have hbl : 203 ≤ pyBitLength u := by
    rw [pyBitLength, if_neg hune]
    have : 202 ≤ u.log2 := (Nat.le_log2 hune).mpr hlow
    omega
  have hE : 150 ≤ pyBitLength u - 53 := by omega
  simp only [round53, if_neg h53] at heq
  have hdvd : (2 : Nat) ^ (pyBitLength u - 53) ∣ u := by
    split at heq
    · rw [Nat.shiftLeft_eq] at heq
      exact Dvd.intro_left _ heq
    · rw [Nat.shiftLeft_eq] at heq
      exact Dvd.intro_left _ heq
  have hdvd150 : (2 : Nat) ^ 150 ∣ u := dvd_trans (pow_dvd_pow 2 hE) hdvd
  exact hmod (Nat.mod_eq_zero_of_dvd hdvd150)

set_option maxRecDepth 8000 in
/-- C8 (counterexample): at seed 5, the scalar returned by `random()` is not
the exact value `U * 2^-256` — Python's `int * float` multiplication first
rounds the 256-bit integer to 53 significant bits. -/
theorem pyRandom_not_exact :
    (pyRandom (initState (some (Seed.int 5)))).map Prod.fst ≠
      some ((intFromHash (sha256 (encodeSeed (Seed.int 5) ++ [44])) : ℚ) / 2 ^ 256) := by
  have hred : (pyRandom (initState (some (Seed.int 5)))).map Prod.fst =
      some ((round53 (intFromHash (sha256 (encodeSeed (Seed.int 5) ++ [44]))) : ℚ) /
        2 ^ 256) := rfl
  rw [hred]
  intro h
  have h2 := Option.some.inj h
  have h256 : ((2 : ℚ) ^ 256) ≠ 0 := by positivity
  have h3 : ((round53 (intFromHash (sha256 (encodeSeed (Seed.int 5) ++ [44]))) : ℚ)) =
      ((intFromHash (sha256 (encodeSeed (Seed.int 5) ++ [44])) : ℚ)) := by
    have hmul := congrArg (fun x : ℚ => x * 2 ^ 256) h2
    simpa [div_mul_cancel₀, h256] using hmul
  have h4 : round53 (intFromHash (sha256 (encodeSeed (Seed.int 5) ++ [44]))) =
      intFromHash (sha256 (encodeSeed (Seed.int 5) ++ [44])) := Nat.cast_injective h3
  exact absurd h4 (round53_ne_of _ (by decide) (by decide))

/-- Witness for C8's amended theorem on a fresh handle seeded with 5. -/
theorem pyRandom_eq_round53_witness :
    (initState (some (Seed.int 5))).basehash = some (encodeSeed (Seed.int 5) ++ [44]) ∧
    ∃ st', pyRandom (initState (some (Seed.int 5))) =
        some ((round53 (intFromHash (sha256 (encodeSeed (Seed.int 5) ++ [44]))) : ℚ) /
          2 ^ 256, st') ∧
      0 ≤ ((round53 (intFromHash (sha256 (encodeSeed (Seed.int 5) ++ [44]))) : ℚ) / 2 ^ 256) ∧
      ((round53 (intFromHash (sha256 (encodeSeed (Seed.int 5) ++ [44]))) : ℚ) / 2 ^ 256) ≤ 1 ∧
      st'.counter = (initState (some (Seed.int 5))).counter + 1 :=
  ⟨rfl, pyRandom_eq_round53 (initState (some (Seed.int 5))) (encodeSeed (Seed.int 5) ++ [44]) rfl⟩

/-! ## The sampler library (`cryptorandom/sample.py`)

Weights and uniform variates are modelled as exact rationals (`numpy`
computes them in binary64; none of the claims settled below depends on a
branch that performs that arithmetic).  The uniform draws consumed by the
weighted-elimination loop are supplied as an oracle list, and the
`-ln(u)/w` scores of `exponential_sample` as an oracle score list, since
the logarithm has no exact rational embedding. -/

/-- Python exceptions surfaced by the sampler layer. -/
inductive PyError where
  | valueError (msg : String)
  | assertionError
  | unboundLocal
  | indexError
  deriving DecidableEq

instance {ε α : Type} [DecidableEq ε] [DecidableEq α] : DecidableEq (Except ε α) := fun x y =>
  match x, y with
  | .error a, .error b =>
    if h : a = b then isTrue (by rw [h]) else isFalse (fun he => h (Except.error.inj he))
  | .ok a, .ok b =>
    if h : a = b then isTrue (by rw [h]) else isFalse (fun he => h (Except.ok.inj he))
  | .error _, .ok _ => isFalse (fun he => Except.noConfusion he)
  | .ok _, .error _ => isFalse (fun he => Except.noConfusion he)

/-- `np.cumsum`. -/
def cumsum (l : List ℚ) : List ℚ :=
  (List.scanl (· + ·) 0 l).tail

/-- `np.searchsorted(wc, v)` with the default `side='left'`: the first index
with `v ≤ wc[i]`, or `len wc` when there is none. -/
def searchsorted (wc : List ℚ) (v : ℚ) : Nat :=
  wc.findIdx (fun w => v ≤ w)

/-- `np.argsort` of a score list (ties resolved stably; `numpy`'s default
quicksort leaves tie order unspecified and the source only sorts distinct
random floats). -/
def argsortQ (scores : List ℚ) : List Nat :=
  (List.range scores.length).mergeSort (fun i j => scores.getD i 0 ≤ scores.getD j 0)

/-- The `for i in range(k)` body of `elimination_sample` without replacement:
renormalize the remaining weights, draw `v`, pick `searchsorted` index,
remove it from both arrays. -/
def elimLoop : Nat → List ℚ → List Nat → List ℚ → List Nat
  | 0, _, _, _ => []
  | i + 1, weights_left, indices_left, draws =>
    let wc := (cumsum weights_left).map (fun x => x / weights_left.sum)
    let inx := searchsorted wc (draws.headD 0)
    indices_left.getD inx 0 ::
      elimLoop i (weights_left.eraseIdx inx) (indices_left.eraseIdx inx) draws.tail

/-- `elimination_sample(k, p, replace)`: negative-weight check first, then
with replacement a `searchsorted(+1)` per draw, and without replacement the
`k > n` error, the `k == n` branch returning `np.array(range(k))`, or the
elimination loop shifted to 1-based. -/
def elimination_sample (k : Nat) (p : List ℚ) (replace : Bool) (draws : List ℚ) :
    Except PyError (List Int) :=
  if p.any (fun w => w < 0) then .error (.valueError ("negative item weight"))
  else
    let n := p.length
    if replace then
      .ok ((draws.take k).map (fun v =>
        (searchsorted ((cumsum p).map (fun x => x / p.sum)) v : Int) + 1))
    else
      if n < k then
        .error (.valueError ("sample size larger than population in sample without replacement"))
      else if k = n then .ok ((List.range k).map (fun i => (i : Int)))
      else .ok ((elimLoop k p (List.range n) draws).map (fun i => (i : Int) + 1))

/-- `exponential_sample(k, p)`: negative-weight check, `k > n` error, the
`k == n` branch returning `np.array(range(k))`, else the 1-based indices of
the `k` smallest `-ln(uᵢ)/wᵢ` scores (supplied as an oracle). -/
def exponential_sample (k : Nat) (p : List ℚ) (scores : List ℚ) :
    Except PyError (List Int) :=
  if p.any (fun w => w < 0) then .error (.valueError ("negative item weight"))
  else
    let n := p.length
    if n < k then
      .error (.valueError ("sample size larger than population in sample without replacement"))
    else if k = n then .ok ((List.range k).map (fun i => (i : Int)))
    else .ok (((argsortQ scores).take k).map (fun i => (i : Int) + 1))

/-- The weighted dispatch row of `random_sample` for an integer population
`a = N` and `replace=False` with weights given: the asserts, then
`np.array(methods[method](size, p)) - 1` inside `try/except ValueError` —
where the `except` branch only prints, so control falls through to
`return a[sam]` with `sam` unbound and Python raises UnboundLocalError. -/
def random_sample_weighted (N k : Nat) (p : List ℚ)
    (sampler : Nat → List ℚ → Except PyError (List Int)) : Except PyError (List Int) :=
  if ¬ 0 < N then .error .assertionError
  else if p.length ≠ N then .error .assertionError
  else if ¬ k ≤ N then .error .assertionError
  else
    match sampler k p with
    | .error (.valueError _) => .error .unboundLocal
    | .error e => .error e
    | .ok sam => .ok (sam.map (fun x => x - 1))

/-- C7 (code bug): at the boundary `k = N` the weighted samplers return the
0-based `range(k)` instead of a 1-based vector over `{1,…,N}`, and after the
dispatcher's uniform `- 1` shift the returned index vector starts with `-1`
(which numpy then maps to the last item). -/
theorem weighted_samplers_zero_based_at_k_eq_N :
    elimination_sample 2 [1, 1] false [] = .ok [0, 1] ∧
    exponential_sample 2 [1, 1] [] = .ok [0, 1] ∧
    random_sample_weighted 2 2 [1, 1] (fun k p => elimination_sample k p false []) =
      .ok [-1, 0] ∧
    ¬ (∀ x ∈ ([0, 1] : List Int), 1 ≤ x) :=
  ⟨by decide, by decide, by decide, by decide⟩

/-- C9 (code bug): a negative weight makes `elimination_sample` (and
`exponential_sample`) raise `ValueError('negative item weight')`, but the
`random_sample` dispatcher catches ValueError, prints, and then evaluates
`a[sam]` with `sam` unbound — the caller sees an unrelated
UnboundLocalError, not the validation failure. -/
theorem negative_weight_error_swallowed :
    elimination_sample 1 [-1, 1] false [] = .error (.valueError ("negative item weight")) ∧
    exponential_sample 1 [-1, 1] [] = .error (.valueError ("negative item weight")) ∧
    random_sample_weighted 2 1 [-1, 1] (fun k p => elimination_sample k p false []) =
      .error .unboundLocal :=
  ⟨by decide, by decide, by decide⟩

/-! ## `random_allocation` (claim C10) -/

/-- The `for i in range(len(sizes) - 1)` loop of `random_allocation`: one
`random_sample` call per (already sorted) group size; without replacement
the drawn indices are removed from the pool (`set(indices) - set(sam)`).
`sampleFn` abstracts `random_sample(list(indices), size, …, prng)` with the
threaded PRNG state `σ`. -/
def allocLoop {σ : Type} (sampleFn : List Nat → Nat → σ → List Nat × σ) (replace : Bool) :
    List Nat → List Nat → σ → List (List Nat) × List Nat × σ
  | [], indices, s => ([], indices, s)
  | sz :: rest, indices, s =>
    let p := sampleFn indices sz s
    let indices' := if replace then indices else indices.filter (fun i => ! p.1.contains i)
    let r := allocLoop sampleFn replace rest indices' p.2
    (p.1 :: r.1, r.2)

/-- `random_allocation(a=N, sizes, replace, …)`: validate, **sort `sizes` in
place ascending**, draw every group but the last in that ascending order,
then draw the last group — or hand it the whole remaining pool when
`Σ sizes = N` without replacement.  The model returns the post-call `sizes`
list (`sizes.sort()` mutates the caller's list) alongside the samples; an
empty `sizes` crashes on `sizes[-1]` (IndexError). -/
def random_allocation {σ : Type} (N : Nat) (sizes : List Nat) (replace : Bool)
    (sampleFn : List Nat → Nat → σ → List Nat × σ) (s0 : σ) :
    Except PyError (List (List Nat) × List Nat) :=
  if ¬ 0 < N then .error .assertionError
  else if ¬ replace ∧ N < sizes.sum then
    .error (.valueError ("sample sizes greater than population size"))
  else
    let sorted := sizes.mergeSort (fun a b => a ≤ b)
    if sorted = [] then .error .indexError
    else
      let r := allocLoop sampleFn replace sorted.dropLast (List.range N) s0
      let lastSam :=
        if ¬ replace ∧ sizes.sum = N then r.2.1
        else (sampleFn r.2.1 (sorted.getLastD 0) r.2.2).1
      .ok (r.1 ++ [lastSam], sorted)

theorem allocLoop_lengths {σ : Type} (sampleFn : List Nat → Nat → σ → List Nat × σ)
    (replace : Bool) (hlen : ∀ ind k s, (sampleFn ind k s).1.length = k) :
    ∀ (szs indices : List Nat) (s : σ),
      ((allocLoop sampleFn replace szs indices s).1).map List.length = szs := by
  intro szs
  induction szs with
  | nil => intro indices s; rfl
  | cons sz rest ih =>
    intro indices s
    simp [allocLoop, hlen, ih]

theorem dropLast_append_getLastD {l : List Nat} (h : l ≠ []) :
    l.dropLast ++ [l.getLastD 0] = l := by
  induction l with
  | nil => exact absurd rfl h
  | cons a l ih =>
    cases l with
    | nil => rfl
    | cons b l' =>
      have hrec := ih (by simp)
      show a :: ((b :: l').dropLast ++ [(b :: l').getLastD 0]) = a :: (b :: l')
      rw [hrec]

/-- C10: `random_allocation` sorts the caller's `sizes` list in place into
ascending order (the returned post-call list is a sorted permutation of the
input), and the groups in the returned sample list are produced in that
ascending-size order: the i-th group has the i-th sorted size. -/
theorem length_filter_add_length_filter_not (l : List Nat) (p : Nat → Bool) :
    (l.filter p).length + (l.filter (fun x => ! p x)).length = l.length := by
  induction l with
  | nil => rfl
  | cons a l ih =>
    by_cases h : p a <;> simp [List.filter_cons, h] <;> omega

/-- Removing the members of a duplicate-free drawn sample from a
duplicate-free pool (`set(indices) - set(sam)`) shrinks the pool by exactly
the sample size. -/
theorem filter_not_contains_length {sam ind : List Nat} (hind : ind.Nodup)
    (hsam : sam.Nodup) (hsub : ∀ x ∈ sam, x ∈ ind) :
    (ind.filter (fun i => ! sam.contains i)).length = ind.length - sam.length := by
  have hperm : List.Perm (ind.filter (fun i => sam.contains i)) sam := by
    rw [List.perm_ext_iff_of_nodup (hind.filter _) hsam]
    intro a
    constructor
    · intro hmem
      have := (List.mem_filter.mp hmem).2
      simpa using this
    · intro ha
      exact List.mem_filter.mpr ⟨hsub a ha, by simpa using ha⟩
  have hlen1 : (ind.filter (fun i => sam.contains i)).length = sam.length := hperm.length_eq
  have hsplit := length_filter_add_length_filter_not ind (fun i => sam.contains i)
  omega

/-- Without replacement, a loop over group sizes whose total fits in the
pool draws groups of exactly the requested sizes and leaves a
duplicate-free pool shrunk by the total. -/
theorem allocLoop_wor {σ : Type} (sampleFn : List Nat → Nat → σ → List Nat × σ)
    (hlen : ∀ ind k s, k ≤ ind.length → (sampleFn ind k s).1.length = k)
    (hwor : ∀ ind k s, k ≤ ind.length → ind.Nodup →
      (sampleFn ind k s).1.Nodup ∧ ∀ x ∈ (sampleFn ind k s).1, x ∈ ind) :
    ∀ (szs indices : List Nat) (s : σ), indices.Nodup → szs.sum ≤ indices.length →
      ((allocLoop sampleFn false szs indices s).1).map List.length = szs ∧
      (allocLoop sampleFn false szs indices s).2.1.Nodup ∧
      (allocLoop sampleFn false szs indices s).2.1.length = indices.length - szs.sum := by
  intro szs
  induction szs with
  | nil =>
    intro ind s hnd hsum
    exact ⟨rfl, hnd, by simp [allocLoop]⟩
  | cons sz rest ih =>
    intro ind s hnd hsum
    rw [List.sum_cons] at hsum
    have hsz : sz ≤ ind.length := by omega
    have hl1 : (sampleFn ind sz s).1.length = sz := hlen ind sz s hsz
    obtain ⟨hsnd, hssub⟩ := hwor ind sz s hsz hnd
    have hfl : (ind.filter (fun i => ! (sampleFn ind sz s).1.contains i)).length =
        ind.length - sz := by
      rw [filter_not_contains_length hnd hsnd hssub, hl1]
    have hfnd : (ind.filter (fun i => ! (sampleFn ind sz s).1.contains i)).Nodup :=
      hnd.filter _
    obtain ⟨ih1, ih2, ih3⟩ := ih (ind.filter (fun i => ! (sampleFn ind sz s).1.contains i))
      (sampleFn ind sz s).2 hfnd (by omega)
    refine ⟨?_, ?_, ?_⟩
    · simp only [allocLoop, if_neg (by simp : ¬ false = true), List.map_cons, hl1, ih1]
    · simpa only [allocLoop, if_neg (by simp : ¬ false = true)] using ih2
    · rw [show (allocLoop sampleFn false (sz :: rest) ind s).2.1.length =
          (allocLoop sampleFn false rest
            (ind.filter (fun i => ! (sampleFn ind sz s).1.contains i))
            (sampleFn ind sz s).2).2.1.length from rfl, ih3, hfl, List.sum_cons]
      omega

/-- C10: `random_allocation` sorts the caller's `sizes` list in place into
ascending order — the post-call `sizes` (returned by the model) is a sorted
permutation of the input — and the groups in the returned sample list are
produced in that ascending-size order: the i-th group has the i-th sorted
size.  `sampleFn` must be an honest sampler: each call returns a sample of
the requested size, and without replacement a duplicate-free subset of the
pool it was given. -/
theorem random_allocation_sorts_in_place {σ : Type}
    (sampleFn : List Nat → Nat → σ → List Nat × σ)
    (N : Nat) (sizes : List Nat) (replace : Bool) (s0 : σ)
    (hlen : ∀ ind k s, (replace = true ∨ k ≤ ind.length) → (sampleFn ind k s).1.length = k)
    (hwor : replace = false → ∀ ind k s, k ≤ ind.length → ind.Nodup →
      (sampleFn ind k s).1.Nodup ∧ ∀ x ∈ (sampleFn ind k s).1, x ∈ ind)
    (samples : List (List Nat)) (sizes' : List Nat)
    (hok : random_allocation N sizes replace sampleFn s0 = .ok (samples, sizes')) :
    sizes' = sizes.mergeSort (fun a b => a ≤ b) ∧
    sizes'.Sorted (· ≤ ·) ∧
    sizes'.Perm sizes ∧
    samples.map List.length = sizes' := by
  rw [random_allocation] at hok
  by_cases hN : 0 < N
  case neg => rw [if_pos (by omega)] at hok; exact absurd hok (by simp)
  rw [if_neg (by omega)] at hok
  by_cases hguard : ¬ replace = true ∧ N < sizes.sum
  case pos => rw [if_pos hguard] at hok; exact absurd hok (by simp)
  rw [if_neg hguard] at hok
  by_cases hnil : sizes.mergeSort (fun a b => a ≤ b) = []
  case pos => rw [if_pos hnil] at hok; exact absurd hok (by simp)
  rw [if_neg hnil] at hok
  have hperm : (sizes.mergeSort (fun a b => a ≤ b)).Perm sizes := List.mergeSort_perm sizes _
  have hsum_eq : (sizes.mergeSort (fun a b => a ≤ b)).sum = sizes.sum := hperm.sum_eq
  have hdl : (sizes.mergeSort (fun a b => a ≤ b)).dropLast.sum +
      (sizes.mergeSort (fun a b => a ≤ b)).getLastD 0 =
      (sizes.mergeSort (fun a b => a ≤ b)).sum := by
    conv_rhs => rw [← dropLast_append_getLastD hnil]
    rw [List.sum_append]
    simp
  have hsorted_part : (sizes.mergeSort (fun a b => a ≤ b)).Sorted (· ≤ ·) := by
    have hs := @List.sorted_mergeSort Nat (fun a b => decide (a ≤ b))
      (fun a b c hab hbc => by
        simp only [decide_eq_true_eq] at *
        omega)
      (fun a b => by
        by_cases h : a ≤ b
        · simp [h]
        · simp [h]; omega)
      sizes
    exact hs.imp (fun h => of_decide_eq_true h)
  by_cases hlast : ¬ replace = true ∧ sizes.sum = N
  · -- without replacement and Σ sizes = N: the last group is the remaining pool
    obtain ⟨hrep, hsumN⟩ := hlast
    have hrepF : replace = false := by
      revert hrep; cases replace <;> simp
    rw [hrepF] at hok
    have hcondT : ¬ false = true ∧ sizes.sum = N := ⟨by simp, hsumN⟩
    simp only [if_pos hcondT] at hok
    have hpair := Except.ok.inj hok
    have hsizes' : sizes' = sizes.mergeSort (fun a b => a ≤ b) :=
      (congrArg Prod.snd hpair).symm
    obtain ⟨hL1, _, hL3⟩ := allocLoop_wor sampleFn
      (fun ind k s hk => hlen ind k s (Or.inr hk)) (hwor hrepF)
      (sizes.mergeSort (fun a b => a ≤ b)).dropLast (List.range N) s0
      (List.nodup_range N) (by rw [List.length_range]; omega)
    refine ⟨hsizes', hsizes' ▸ hsorted_part, hsizes' ▸ hperm, ?_⟩
    have hsamples : samples =
        (allocLoop sampleFn false (sizes.mergeSort (fun a b => a ≤ b)).dropLast
          (List.range N) s0).1 ++
        [(allocLoop sampleFn false (sizes.mergeSort (fun a b => a ≤ b)).dropLast
          (List.range N) s0).2.1] := (congrArg Prod.fst hpair).symm
    rw [hsamples, hsizes', List.map_append, hL1]
    show _ ++ [List.length _] = _
    rw [hL3, List.length_range]
    have hlastlen : N - (sizes.mergeSort (fun a b => a ≤ b)).dropLast.sum =
        (sizes.mergeSort (fun a b => a ≤ b)).getLastD 0 := by omega
    rw [hlastlen]
    exact dropLast_append_getLastD hnil
  · -- the last group is drawn by the sampler
    simp only [if_neg hlast] at hok
    have hpair := Except.ok.inj hok
    have hsizes' : sizes' = sizes.mergeSort (fun a b => a ≤ b) :=
      (congrArg Prod.snd hpair).symm
    have hsamples : samples =
        (allocLoop sampleFn replace (sizes.mergeSort (fun a b => a ≤ b)).dropLast
          (List.range N) s0).1 ++
        [(sampleFn (allocLoop sampleFn replace (sizes.mergeSort (fun a b => a ≤ b)).dropLast
            (List.range N) s0).2.1
          ((sizes.mergeSort (fun a b => a ≤ b)).getLastD 0)
          (allocLoop sampleFn replace (sizes.mergeSort (fun a b => a ≤ b)).dropLast
            (List.range N) s0).2.2).1] := (congrArg Prod.fst hpair).symm
    refine ⟨hsizes', hsizes' ▸ hsorted_part, hsizes' ▸ hperm, ?_⟩
    by_cases hrep : replace = true
    · -- with replacement: pool untouched, every call returns the asked size
      have hlen' : ∀ ind k s, (sampleFn ind k s).1.length = k :=
        fun ind k s => hlen ind k s (Or.inl hrep)
      rw [hsamples, hsizes', List.map_append,
        allocLoop_lengths sampleFn replace hlen']
      show _ ++ [List.length _] = _
      rw [hlen']
      exact dropLast_append_getLastD hnil
    · -- without replacement and Σ sizes < N
      have hrepF : replace = false := by
        revert hrep; cases replace <;> simp
      have hsumlt : sizes.sum < N := by
        rcases Nat.lt_or_ge sizes.sum N with h | h
        · exact h
        · exfalso
          have h1 : ¬ (N < sizes.sum) := fun hc => hguard ⟨by simp [hrepF], hc⟩
          exact hlast ⟨by simp [hrepF], by omega⟩
      rw [hrepF] at hsamples
      obtain ⟨hL1, _, hL3⟩ := allocLoop_wor sampleFn
        (fun ind k s hk => hlen ind k s (Or.inr hk)) (hwor hrepF)
        (sizes.mergeSort (fun a b => a ≤ b)).dropLast (List.range N) s0
        (List.nodup_range N) (by rw [List.length_range]; omega)
      have hlastfit : (sizes.mergeSort (fun a b => a ≤ b)).getLastD 0 ≤
          (allocLoop sampleFn false (sizes.mergeSort (fun a b => a ≤ b)).dropLast
            (List.range N) s0).2.1.length := by
        rw [hL3, List.length_range]
        omega
      rw [hsamples, hsizes', List.map_append, hL1]
      show _ ++ [List.length _] = _
      rw [hlen _ _ _ (Or.inr hlastfit)]
      exact dropLast_append_getLastD hnil

/-- Witness for C10 with a two-element population, `sizes = [1]`, no
replacement, and the honest prefix-of-pool sampler. -/
theorem random_allocation_sorts_in_place_witness :
    (∀ (ind : List Nat) (k : Nat) (s : Unit), (false = true ∨ k ≤ ind.length) →
      (((fun (ind : List Nat) (k : Nat) (_ : Unit) => (ind.take k, ())) ind k s).1).length
        = k) ∧
    (false = false → ∀ (ind : List Nat) (k : Nat) (s : Unit), k ≤ ind.length → ind.Nodup →
      (((fun (ind : List Nat) (k : Nat) (_ : Unit) => (ind.take k, ())) ind k s).1).Nodup ∧
      ∀ x ∈ (((fun (ind : List Nat) (k : Nat) (_ : Unit) => (ind.take k, ())) ind k s).1),
        x ∈ ind) ∧
    random_allocation 2 [1] false
      (fun (ind : List Nat) (k : Nat) (_ : Unit) => (ind.take k, ())) () =
      .ok ([[0]], [1]) ∧
    (([1] : List Nat) = [1].mergeSort (fun a b => a ≤ b) ∧
     ([1] : List Nat).Sorted (· ≤ ·) ∧
     ([1] : List Nat).Perm [1] ∧
     ([[0]] : List (List Nat)).map List.length = [1]) := by
  have hlen : ∀ (ind : List Nat) (k : Nat) (s : Unit), (false = true ∨ k ≤ ind.length) →
      (((fun (ind : List Nat) (k : Nat) (_ : Unit) => (ind.take k, ())) ind k s).1).length
        = k := by
    intro ind k s h
    rcases h with h | h
    · simp at h
    · simp [List.length_take]
      omega
  have hwor : false = false → ∀ (ind : List Nat) (k : Nat) (s : Unit),
      k ≤ ind.length → ind.Nodup →
      (((fun (ind : List Nat) (k : Nat) (_ : Unit) => (ind.take k, ())) ind k s).1).Nodup ∧
      ∀ x ∈ (((fun (ind : List Nat) (k : Nat) (_ : Unit) => (ind.take k, ())) ind k s).1),
        x ∈ ind := by
    intro _ ind k s _ hnd
    exact ⟨hnd.sublist (List.take_sublist k ind), fun x hx => List.take_subset k ind hx⟩
  have hok : random_allocation 2 [1] false
      (fun (ind : List Nat) (k : Nat) (_ : Unit) => (ind.take k, ())) () =
      .ok ([[0]], [1]) := by
    simp [random_allocation, allocLoop, List.range_succ]
  exact ⟨hlen, hwor, hok,
    random_allocation_sorts_in_place _ 2 [1] false () hlen hwor [[0]] [1] hok⟩

end Cryptorandom
